import Mathlib

/-!
Verification of the resumable event-streaming ingestion pipeline of the
last-tap-hypersync scripts.  The definitions below are shallow embeddings of
the JavaScript source: mutable loop state is threaded explicitly, the remote
sink (Supabase) and the remote stream source (Hypersync) are abstracted as
oracles, and JavaScript numbers that hold block counts or attempt counts are
modelled as Nat.  JavaScript truthiness of a possibly absent number is
modelled as an Option Nat whose value none or some 0 is falsy.
-/

namespace LastTap

/-! ### Cursor update

Embeds the cursor-advance step of the main loop
(last-tap-tracker-supabase.js: `if (res.nextBlock) { currentBlock =
res.nextBlock; query.fromBlock = currentBlock; }`, identical in
last-tap-tracker-supabase-batch.js).  The assignment is unconditional
whenever `res.nextBlock` is truthy: there is no monotonic guard. -/
def advanceCursor (cur : Nat) (next : Option Nat) : Nat :=
  match next with
  | none => cur
  | some n => if n ≠ 0 then n else cur

/-- The cursor values observed before the first and after each `advanceCursor`
call, for a sequence of `nextBlock` values. -/
def cursorTrace (cur : Nat) (ns : List (Option Nat)) : List Nat :=
  List.scanl advanceCursor cur ns

/-! ### Sink upsert with retry

Embeds `upsertEventWithRetry` (last-tap-tracker-supabase.js) and
`batchUpsertEventsWithRetry` (last-tap-tracker-supabase-batch.js and
uniswap-v2-indexer.js).  The sink is an oracle mapping the attempt number to
success or failure; every sink call actually made is recorded together with
the batch passed to it, so that theorems can talk about the number of calls
and about the batch never being split. -/

/-- Process-wide counters of the batch scripts (`eventCounts.SupabaseBatchesSent`,
`eventCounts.SupabaseEventsUpserted`, `eventCounts.SupabaseErrors`). -/
structure Counters where
  batchesSent : Nat
  eventsUpserted : Nat
  errors : Nat
deriving DecidableEq, Repr

/-- Loop body of `upsertEventWithRetry` (single-record variant,
last-tap-tracker-supabase.js).  `attempts` starts at 0; the while guard is
`attempts < maxRetries`; each iteration increments `attempts` and calls the
sink once; success returns immediately, a failed attempt retries after a
backoff delay (irrelevant to the result), and exhausting the guard returns
failure.  Returns the success flag and the list of attempt numbers at which
the sink was called. -/
def upsertRetryAux (sink : Nat → Bool) (maxRetries attempts : Nat)
    (calls : List Nat) : Bool × List Nat :=
  if attempts < maxRetries then
    if sink (attempts + 1) then (true, calls ++ [attempts + 1])
    else upsertRetryAux sink maxRetries (attempts + 1) (calls ++ [attempts + 1])
  else (false, calls)
termination_by maxRetries - attempts

/-- `upsertEventWithRetry(tableName, eventData, maxRetries = 3)`. -/
def upsertEventWithRetry (sink : Nat → Bool) (maxRetries : Nat := 3) :
    Bool × List Nat :=
  upsertRetryAux sink maxRetries 0 []

/-- Loop body of `batchUpsertEventsWithRetry`.  Each iteration increments
`attempts` and sends the whole `batch` to the sink; on success it bumps
`SupabaseBatchesSent` by one and `SupabaseEventsUpserted` by the batch size
and returns; on a failed attempt it retries while `attempts < maxRetries`
and otherwise bumps `SupabaseErrors` by the batch size and returns failure.
The list of calls records, for each sink call, the attempt number and the
batch handed over. -/
def batchRetryAux {R : Type} (sink : Nat → Bool) (maxRetries : Nat)
    (batch : List R) (attempts : Nat) (calls : List (Nat × List R))
    (c : Counters) : Bool × List (Nat × List R) × Counters :=
  if attempts < maxRetries then
    if sink (attempts + 1) then
      (true, calls ++ [(attempts + 1, batch)],
        { c with batchesSent := c.batchesSent + 1,
                 eventsUpserted := c.eventsUpserted + batch.length })
    else if attempts + 1 < maxRetries then
      batchRetryAux sink maxRetries batch (attempts + 1)
        (calls ++ [(attempts + 1, batch)]) c
    else
      (false, calls ++ [(attempts + 1, batch)],
        { c with errors := c.errors + batch.length })
  else (false, calls, c)
termination_by maxRetries - attempts

/-- `batchUpsertEventsWithRetry(tableName, batchData)`: a missing or empty
`batchData` (`!batchData || batchData.length === 0`) is an immediate success
with no sink call and no counter change; otherwise the retry loop runs. -/
def batchUpsertEventsWithRetry {R : Type} (sink : Nat → Bool) (maxRetries : Nat)
    (batchData : Option (List R)) (c : Counters) :
    Bool × List (Nat × List R) × Counters :=
  match batchData with
  | none => (true, [], c)
  | some batch =>
    if batch.length = 0 then (true, [], c)
    else batchRetryAux sink maxRetries batch 0 [] c

/-! ### Endpoint pool and RPC failover

Embeds the RPC management of uniswap-v2-indexer.js: `getCurrentRpcUrl`,
`switchToNextRpc` and `createHypersyncClientWithFallback`.  The pool holds
`n` endpoints indexed 0..n-1; whether connecting to an endpoint succeeds, and
whether a failure is a transient connection error (a 503, timeout or refused
connection in the source), are per-endpoint oracles. -/

/-- `switchToNextRpc(network)`: with at most one configured endpoint it
returns false and leaves the index unchanged; otherwise it advances the
index to `(currentRpcIndex + 1) % urls.length` and returns true. -/
def switchToNextRpc (n idx : Nat) : Bool × Nat :=
  if n ≤ 1 then (false, idx)
  else (true, (idx + 1) % n)

/-- Outcome of `createHypersyncClientWithFallback`: either the index of the
endpoint a client was obtained from together with the number of connection
attempts used, or one of its two thrown errors. -/
inductive ConnectOutcome where
  | connected (idx attemptsUsed : Nat)
  | noEndpointsConfigured
  | exhausted
deriving DecidableEq, Repr

/-- Loop body of `createHypersyncClientWithFallback`.  While
`totalAttempts < maxTotalAttempts`: read the current endpoint
(`getCurrentRpcUrl` reduces the index modulo the pool size), count one
attempt, try to connect; on success return the client; on a connection error
that `switchToNextRpc` can act on, continue at the next endpoint; otherwise,
if attempts remain, back off and switch before continuing.  Leaving the loop
raises the failed-to-connect error. -/
def connectAux (succeeds connErr : Nat → Bool) (n maxTotal idx totalAttempts : Nat) :
    ConnectOutcome :=
  if totalAttempts < maxTotal then
    if succeeds (idx % n) then .connected (idx % n) (totalAttempts + 1)
    else if connErr (idx % n) && (switchToNextRpc n (idx % n)).1 then
      connectAux succeeds connErr n maxTotal (switchToNextRpc n (idx % n)).2
        (totalAttempts + 1)
    else if totalAttempts + 1 < maxTotal then
      connectAux succeeds connErr n maxTotal (switchToNextRpc n (idx % n)).2
        (totalAttempts + 1)
    else connectAux succeeds connErr n maxTotal (idx % n) (totalAttempts + 1)
  else .exhausted
termination_by maxTotal - totalAttempts

/-- `createHypersyncClientWithFallback(maxRetries = 3)`: an empty pool raises
`No RPC URLs configured`; otherwise the loop runs for at most
`maxRetries * urls.length` total attempts starting from the current index. -/
def createHypersyncClientWithFallback (succeeds connErr : Nat → Bool)
    (n idx0 : Nat) (maxRetries : Nat := 3) : ConnectOutcome :=
  if n = 0 then .noEndpointsConfigured
  else connectAux succeeds connErr n (maxRetries * n) idx0 0

/-! ### At-tip polling

Embeds the `res === null` branch of the main loop of
last-tap-tracker-supabase-batch.js: sleep `POLLING_INTERVAL`, re-query the
chain height, and only when the new height exceeds the known height close
the stream and reopen it with `query.fromBlock = currentBlock` (the cursor,
unchanged) while recording the new height. -/

/-- Polling interval in milliseconds while at the chain tip. -/
def POLLING_INTERVAL : Nat := 200

/-- State touched by one at-tip iteration: the known chain height, the
cursor (`currentBlock`), a stream generation counter that increments
whenever the stream is closed and reopened, the `fromBlock` the current
stream was opened at, and the accumulated sleep time in milliseconds. -/
structure TipState where
  height : Nat
  cursor : Nat
  streamGen : Nat
  streamFrom : Nat
  sleptMs : Nat
deriving DecidableEq, Repr

/-- One pass through the `res === null` branch, given the height returned by
the re-query. -/
def atTipStep (newHeight : Nat) (s : TipState) : TipState :=
  if newHeight > s.height then
    { s with sleptMs := s.sleptMs + POLLING_INTERVAL, height := newHeight,
             streamGen := s.streamGen + 1, streamFrom := s.cursor }
  else { s with sleptMs := s.sleptMs + POLLING_INTERVAL }

/-! ### Per-record batch processing

Embeds the log-processing loop of last-tap-tracker-supabase-batch.js (the
same structure appears in last-tap-tracker-supabase.js): for each position i
of the received batch, the decoder output `decodedLogs[i]` is either null or
a decoded record, `res.data.logs[i]` is the raw log, and the body of the
per-record try block may raise an exception that is caught, logged and
skipped.  Raw fields selected by the query may be absent (undefined), hence
Option; decoded parameter accesses use optional chaining
(`decodedLog.indexed[0]?.val?.toString()`), hence Option String. -/

/-- The raw log fields this pipeline reads. -/
structure RawLog where
  blockNumber : Option Nat
  transactionHash : Option String
  logIndex : Option Nat
  topic0 : String
deriving DecidableEq, Repr

/-- The decoded parameter strings the pipeline reads: the first indexed
parameter and the three body parameters, each via optional chaining. -/
structure DecodedLog where
  indexed0 : Option String
  body0 : Option String
  body1 : Option String
  body2 : Option String
deriving DecidableEq, Repr

/-- A row of the `tapped_events` table as built by the script.  The
`event_timestamp` is stored here as the decoded timestamp string; the
source formats it through `new Date(...).toISOString()`, a presentation
step delegated to the JavaScript Date library. -/
structure TappedRow where
  block_number : Nat
  transaction_hash : String
  log_index : Nat
  tapper_address : String
  round_number : String
  tap_cost_paid : String
  event_timestamp : String
deriving DecidableEq, Repr

/-- A row of the `round_ended_events` table as built by the script. -/
structure RoundEndedRow where
  block_number : Nat
  transaction_hash : String
  log_index : Nat
  winner_address : String
  prize_amount : String
  round_number : String
  event_timestamp : String
deriving DecidableEq, Repr

/-- One position of a received batch: the decoder output (null or decoded),
the raw log, and whether the body of the per-record try block raises. -/
structure BatchItem where
  decoded : Option DecodedLog
  raw : RawLog
  procThrows : Bool
deriving DecidableEq, Repr

/-- JavaScript falsiness of a possibly absent string: undefined and the
empty string are falsy (the `!tapper || !roundNumber || ...` checks). -/
def falsyStr : Option String → Bool
  | none => true
  | some s => s.isEmpty

/-- Processing of one batch position, parametrised by the Tapped topic0 hash
`tappedTopic`.  In source order: a null decoder output is logged and
skipped; a log whose transactionHash, logIndex or blockNumber is undefined
is logged and skipped; the event type is Tapped when topic0 equals the
Tapped hash and RoundEnded otherwise; inside the try block an exception is
caught, logged and skipped, and decoded values that are missing or empty
are logged and skipped; otherwise the row for the matching table is built.
Returns the row pushed onto `tappedBatch` or `roundEndedBatch`, if any. -/
def processItem (tappedTopic : String) (item : BatchItem) :
    Option (TappedRow ⊕ RoundEndedRow) :=
  match item.decoded with
  | none => none
  | some d =>
    match item.raw.transactionHash, item.raw.logIndex, item.raw.blockNumber with
    | some th, some li, some bn =>
      if item.procThrows then none
      else if item.raw.topic0 = tappedTopic then
        if falsyStr d.indexed0 || falsyStr d.body0 || falsyStr d.body1
            || falsyStr d.body2 then none
        else some (Sum.inl
          { block_number := bn, transaction_hash := th, log_index := li,
            tapper_address := d.indexed0.getD "",
            round_number := d.body0.getD "",
            tap_cost_paid := d.body1.getD "",
            event_timestamp := d.body2.getD "" })
      else
        if falsyStr d.indexed0 || falsyStr d.body0 || falsyStr d.body1
            || falsyStr d.body2 then none
        else some (Sum.inr
          { block_number := bn, transaction_hash := th, log_index := li,
            winner_address := d.indexed0.getD "",
            prize_amount := d.body0.getD "",
            round_number := d.body1.getD "",
            event_timestamp := d.body2.getD "" })
    | _, _, _ => none

/-- The `tappedBatch` array collected by one pass over the received logs. -/
def tappedBatchOf (tappedTopic : String) (items : List BatchItem) :
    List TappedRow :=
  items.filterMap fun it =>
    match processItem tappedTopic it with
    | some (Sum.inl t) => some t
    | _ => none

/-- The `roundEndedBatch` array collected by one pass over the received
logs. -/
def roundEndedBatchOf (tappedTopic : String) (items : List BatchItem) :
    List RoundEndedRow :=
  items.filterMap fun it =>
    match processItem tappedTopic it with
    | some (Sum.inr r) => some r
    | _ => none

/-! ### The sink table and idempotent upsert

The sink is an external Postgres-backed service; the scripts call
`supabase.from(tableName).upsert(batchData, { onConflict:
"transaction_hash,log_index" })` and the table declares `PRIMARY KEY
(transaction_hash, log_index)` (SETUP_SQL of uniswap-v2-indexer.js).
Modelled from the spec: the persisted-state semantics of the sink upsert is
not part of this repository, so it follows the specification words — on
conflict with an existing row sharing the natural key the existing row is
overwritten, otherwise the record is inserted as a new row. -/

/-- The natural key of a sink record: `(transaction_hash, log_index)`. -/
def natKey (r : TappedRow) : String × Nat :=
  (r.transaction_hash, r.log_index)

/-- The natural-key conflict test: `onConflict: "transaction_hash,log_index"`. -/
def sameKey (a b : TappedRow) : Bool :=
  natKey a == natKey b

/-- Whether the table already holds a row in conflict with `r`. -/
def hasKeyOf (tbl : List TappedRow) (r : TappedRow) : Bool :=
  tbl.any fun row => sameKey row r

/-- Overwriting of one row by the conflicting record `r`: a row sharing the
natural key is replaced by `r`, any other row is untouched. -/
def overwriteAt (r row : TappedRow) : TappedRow :=
  if sameKey row r then r else row

/-- Modelled from the spec: upsert of one record into the table (the sink
database applies this per record of a batch).  A row in conflict on the
natural key is overwritten in place; otherwise the record is appended. -/
def upsertRow (tbl : List TappedRow) (r : TappedRow) : List TappedRow :=
  if hasKeyOf tbl r then tbl.map (overwriteAt r) else tbl ++ [r]

/-- Modelled from the spec: applying a whole batch of sink records to the
table, in order. -/
def applyBatch (tbl : List TappedRow) (batch : List TappedRow) :
    List TappedRow :=
  batch.foldl upsertRow tbl

/-- No two rows of the table share the natural key. -/
def keysNodup (tbl : List TappedRow) : Prop :=
  List.Pairwise (fun a b => sameKey a b = false) tbl

/-! ### Numeric value handling of the swap indexer

Embeds the swap-row construction of uniswap-v2-indexer.js.  Every numeric
value carries the JavaScript representation it flowed through: the raw
amounts are BigInt end to end and are persisted via `.toString()`
(arbitrary precision), while the derived price is computed as
`Number(amountWethOut * 10n**18n / amountTapIn) / 1e18` — a coercion to a
floating-point number — and persisted via `price.toFixed(18)`.  The value
component is the ideal numeric value; floating-point rounding is not
modelled, only the representation kind is tracked. -/

inductive NumKind where
  | bigIntExact
  | floatingPoint
deriving DecidableEq, Repr

/-- A numeric value tagged with the JavaScript representation it passed
through on its way into the persisted row. -/
structure TaggedNum where
  kind : NumKind
  val : ℚ
deriving DecidableEq, Repr

/-- A row of the `swap_events` table as built by the script. -/
structure SwapRow where
  block_number : Nat
  transaction_hash : String
  log_index : Nat
  sender : String
  recipient : String
  amount_weth_in : TaggedNum
  amount_tap_in : TaggedNum
  amount_weth_out : TaggedNum
  amount_tap_out : TaggedNum
  price_tap_in_weth : TaggedNum
deriving DecidableEq, Repr

/-- Swap-row construction from one decoded Swap event: the four amounts are
BigInt (`BigInt(decodedLog.body[i]?.val)`), WETH/TAP sides are chosen by
token order, the price is computed in BigInt then coerced with `Number` and
divided by `1e18` (floating point), and the row is pushed with the amounts
as exact strings and the price as `price.toFixed(18)`. -/
def buildSwapRow (isWethToken0 : Bool) (bn : Nat) (th : String) (li : Nat)
    (sender recipient : String)
    (amount0In amount1In amount0Out amount1Out : ℤ) : SwapRow :=
  let amountWethIn := if isWethToken0 then amount0In else amount1In
  let amountTapIn := if isWethToken0 then amount1In else amount0In
  let amountWethOut := if isWethToken0 then amount0Out else amount1Out
  let amountTapOut := if isWethToken0 then amount1Out else amount0Out
  let price : ℚ :=
    if 0 < amountTapIn ∧ 0 < amountWethOut then
      ((amountWethOut * 10 ^ 18 / amountTapIn : ℤ) : ℚ) / 10 ^ 18
    else if 0 < amountWethIn ∧ 0 < amountTapOut then
      ((amountWethIn * 10 ^ 18 / amountTapOut : ℤ) : ℚ) / 10 ^ 18
    else 0
  { block_number := bn, transaction_hash := th, log_index := li,
    sender := sender, recipient := recipient,
    amount_weth_in := ⟨.bigIntExact, (amountWethIn : ℚ)⟩,
    amount_tap_in := ⟨.bigIntExact, (amountTapIn : ℚ)⟩,
    amount_weth_out := ⟨.bigIntExact, (amountWethOut : ℚ)⟩,
    amount_tap_out := ⟨.bigIntExact, (amountTapOut : ℚ)⟩,
    price_tap_in_weth := ⟨.floatingPoint, price⟩ }

/-- The numeric fields of a swap row that are persisted to the sink. -/
def storedNumerics (r : SwapRow) : List TaggedNum :=
  [r.amount_weth_in, r.amount_tap_in, r.amount_weth_out, r.amount_tap_out,
   r.price_tap_in_weth]

/-! ### Concrete sample inputs

Small concrete records and sinks used to evaluate the model at specific
inputs. -/

/-- A sample tapped-events row. -/
def sampleRowA : TappedRow :=
  { block_number := 3258331, transaction_hash := "0xaaa", log_index := 0,
    tapper_address := "0xt1", round_number := "1", tap_cost_paid := "100",
    event_timestamp := "1700000000" }

/-- A second sample tapped-events row with a different log index. -/
def sampleRowB : TappedRow :=
  { block_number := 3258331, transaction_hash := "0xaaa", log_index := 1,
    tapper_address := "0xt2", round_number := "1", tap_cost_paid := "110",
    event_timestamp := "1700000100" }

/-- A sink that fails the first three attempts and would succeed from the
fourth on. -/
def sinkFailsThrice : Nat → Bool := fun a => decide (4 ≤ a)

/-- A sample raw log with all key fields present and a Tapped topic0. -/
def sampleRawA : RawLog :=
  { blockNumber := some 3258331, transactionHash := some "0xaaa",
    logIndex := some 0, topic0 := "0xTAP" }

/-- A sample raw log whose transaction hash is undefined. -/
def sampleRawNoTx : RawLog :=
  { blockNumber := some 3258331, transactionHash := none,
    logIndex := some 0, topic0 := "0xTAP" }

/-- A sample decoded log with all parameter strings present. -/
def sampleDecodedA : DecodedLog :=
  { indexed0 := some "0xt1", body0 := some "1", body1 := some "100",
    body2 := some "1700000000" }

/-- A well-formed batch item. -/
def sampleItemA : BatchItem :=
  { decoded := some sampleDecodedA, raw := sampleRawA, procThrows := false }

/-- A batch item whose decoder output is null. -/
def sampleItemUndecodable : BatchItem :=
  { decoded := none, raw := sampleRawA, procThrows := false }

/-- A batch item whose per-record processing raises. -/
def sampleItemThrowing : BatchItem :=
  { decoded := some sampleDecodedA, raw := sampleRawA, procThrows := true }

/-- A batch item whose raw log is missing the transaction hash. -/
def sampleItemMissingKey : BatchItem :=
  { decoded := some sampleDecodedA, raw := sampleRawNoTx, procThrows := false }

/-! ## Supporting lemmas -/

/-- Unfolding equation of the batch upsert entry point on a present batch. -/
theorem batchUpsertEventsWithRetry_some_eq {R : Type} (sink : Nat → Bool)
    (mr : Nat) (batch : List R) (c : Counters) :
    batchUpsertEventsWithRetry sink mr (some batch) c =
      if batch.length = 0 then (true, [], c)
      else batchRetryAux sink mr batch 0 [] c := rfl

/-- Under a sink that fails on every attempt within the budget, the
single-record retry loop runs through all remaining attempt numbers and
fails. -/
theorem upsertRetryAux_allFail (sink : Nat → Bool) (mr : Nat)
    (hfail : ∀ a, a ≤ mr → sink a = false) :
    ∀ fuel attempts calls, mr - attempts = fuel →
      upsertRetryAux sink mr attempts calls =
        (false, calls ++ List.range' (attempts + 1) (mr - attempts)) := by
  intro fuel
  induction fuel with
  | zero =>
    intro attempts calls h
    rw [upsertRetryAux]
    have hge : ¬ attempts < mr := by omega
    simp [hge, h]
  | succ n ih =>
    intro attempts calls h
    have hlt : attempts < mr := by omega
    have hs : ¬ sink (attempts + 1) = true := by
      rw [hfail _ (by omega)]; simp
    rw [upsertRetryAux, if_pos hlt, if_neg hs]
    rw [ih (attempts + 1) (calls ++ [attempts + 1]) (by omega)]
    have hr : mr - attempts = (mr - (attempts + 1)) + 1 := by omega
    rw [hr, List.range'_succ]
    simp

/-- The single-record retry loop never makes more sink calls than the
remaining budget. -/
theorem upsertRetryAux_le (sink : Nat → Bool) (mr : Nat) :
    ∀ fuel attempts calls, mr - attempts = fuel →
      (upsertRetryAux sink mr attempts calls).2.length ≤
        calls.length + (mr - attempts) := by
  intro fuel
  induction fuel with
  | zero =>
    intro attempts calls h
    rw [upsertRetryAux]
    have hge : ¬ attempts < mr := by omega
    simp [hge]
  | succ n ih =>
    intro attempts calls h
    have hlt : attempts < mr := by omega
    rw [upsertRetryAux, if_pos hlt]
    by_cases hs : sink (attempts + 1) = true
    · rw [if_pos hs]; simp; omega
    · rw [if_neg hs]
      have := ih (attempts + 1) (calls ++ [attempts + 1]) (by omega)
      simp only [List.length_append, List.length_singleton] at this
      omega

/-- Under a sink that fails on every attempt within the budget, the batch
retry loop runs through all remaining attempt numbers, hands the whole batch
to every call, bumps the error counter by the batch size once, and fails. -/
theorem batchRetryAux_allFail {R : Type} (sink : Nat → Bool) (mr : Nat)
    (batch : List R) (hfail : ∀ a, a ≤ mr → sink a = false) :
    ∀ fuel attempts calls c, mr - attempts = fuel → attempts < mr →
      batchRetryAux sink mr batch attempts calls c =
        (false,
         calls ++ (List.range' (attempts + 1) (mr - attempts)).map
           (fun a => (a, batch)),
         { c with errors := c.errors + batch.length }) := by
  intro fuel
  induction fuel with
  | zero => intro attempts calls c h hlt; omega
  | succ n ih =>
    intro attempts calls c h hlt
    have hs : ¬ sink (attempts + 1) = true := by
      rw [hfail _ (by omega)]; simp
    rw [batchRetryAux, if_pos hlt, if_neg hs]
    by_cases ha : attempts + 1 < mr
    · rw [if_pos ha, ih (attempts + 1) (calls ++ [(attempts + 1, batch)]) c
        (by omega) ha]
      have hr : mr - attempts = (mr - (attempts + 1)) + 1 := by omega
      rw [hr, List.range'_succ]
      simp
    · rw [if_neg ha]
      have hr : mr - attempts = 1 := by omega
      rw [hr]
      simp

/-- The batch retry loop never makes more sink calls than the remaining
budget. -/
theorem batchRetryAux_le {R : Type} (sink : Nat → Bool) (mr : Nat)
    (batch : List R) :
    ∀ fuel attempts calls c, mr - attempts = fuel →
      (batchRetryAux sink mr batch attempts calls c).2.1.length ≤
        calls.length + (mr - attempts) := by
  intro fuel
  induction fuel with
  | zero =>
    intro attempts calls c h
    rw [batchRetryAux]
    have hge : ¬ attempts < mr := by omega
    simp [hge]
  | succ n ih =>
    intro attempts calls c h
    have hlt : attempts < mr := by omega
    rw [batchRetryAux, if_pos hlt]
    by_cases hs : sink (attempts + 1) = true
    · rw [if_pos hs]; simp; omega
    · rw [if_neg hs]
      by_cases ha : attempts + 1 < mr
      · rw [if_pos ha]
        have := ih (attempts + 1) (calls ++ [(attempts + 1, batch)]) c (by omega)
        simp only [List.length_append, List.length_singleton] at this
        omega
      · rw [if_neg ha]; simp; omega

/-- Every sink call recorded by the batch retry loop was already recorded or
carries an attempt number within budget and the whole batch. -/
theorem batchRetryAux_calls {R : Type} (sink : Nat → Bool) (mr : Nat)
    (batch : List R) :
    ∀ fuel attempts calls c, mr - attempts = fuel →
      ∀ p ∈ (batchRetryAux sink mr batch attempts calls c).2.1,
        p ∈ calls ∨ (p.1 ≤ mr ∧ p.2 = batch) := by
  intro fuel
  induction fuel with
  | zero =>
    intro attempts calls c h p hp
    rw [batchRetryAux] at hp
    have hge : ¬ attempts < mr := by omega
    simp [hge] at hp
    exact Or.inl hp
  | succ n ih =>
    intro attempts calls c h p hp
    have hlt : attempts < mr := by omega
    rw [batchRetryAux, if_pos hlt] at hp
    by_cases hs : sink (attempts + 1) = true
    · rw [if_pos hs] at hp
      simp at hp
      rcases hp with hp | hp
      · exact Or.inl hp
      · right; rw [hp]; exact ⟨by omega, rfl⟩
    · rw [if_neg hs] at hp
      by_cases ha : attempts + 1 < mr
      · rw [if_pos ha] at hp
        rcases ih (attempts + 1) (calls ++ [(attempts + 1, batch)]) c
          (by omega) p hp with hmem | hgood
        · rcases List.mem_append.mp hmem with hmem | hmem
          · exact Or.inl hmem
          · right
            simp only [List.mem_singleton] at hmem
            rw [hmem]; exact ⟨by omega, rfl⟩
        · exact Or.inr hgood
      · rw [if_neg ha] at hp
        simp at hp
        rcases hp with hp | hp
        · exact Or.inl hp
        · right; rw [hp]; exact ⟨by omega, rfl⟩

/-- Counter effect of the batch retry loop, entered within budget: success
bumps the batches-sent counter by one and the upserted-events counter by the
batch size; failure bumps the error counter by the batch size. -/
theorem batchRetryAux_counters {R : Type} (sink : Nat → Bool) (mr : Nat)
    (batch : List R) :
    ∀ fuel attempts calls c, mr - attempts = fuel → attempts < mr →
      ((batchRetryAux sink mr batch attempts calls c).1 = true →
        (batchRetryAux sink mr batch attempts calls c).2.2 =
          { c with batchesSent := c.batchesSent + 1,
                   eventsUpserted := c.eventsUpserted + batch.length }) ∧
      ((batchRetryAux sink mr batch attempts calls c).1 = false →
        (batchRetryAux sink mr batch attempts calls c).2.2 =
          { c with errors := c.errors + batch.length }) := by
  intro fuel
  induction fuel with
  | zero => intro attempts calls c h hlt; omega
  | succ n ih =>
    intro attempts calls c h hlt
    rw [batchRetryAux, if_pos hlt]
    by_cases hs : sink (attempts + 1) = true
    · rw [if_pos hs]; simp
    · rw [if_neg hs]
      by_cases ha : attempts + 1 < mr
      · rw [if_pos ha]
        exact ih (attempts + 1) (calls ++ [(attempts + 1, batch)]) c (by omega) ha
      · rw [if_neg ha]; simp

/-! ## Claim theorems -/

/-- C1 counterexample: the cursor advance of the main loop assigns any
nonzero `nextBlock` unconditionally, so an out-of-order smaller value
decreases the observed cursor instead of being a no-op: after advancing to
10 and then advancing with 5, the observed values 0, 10, 5 are not
non-decreasing. -/
theorem cursor_not_monotonic_cex :
    cursorTrace 0 [some 10, some 5] = [0, 10, 5] ∧
    ¬ List.Chain' (· ≤ ·) (cursorTrace 0 [some 10, some 5]) := by
  constructor
  · rfl
  · rw [show cursorTrace 0 [some 10, some 5] = [0, 10, 5] from rfl]
    intro hch
    have h1 := (List.chain'_cons.mp hch).2
    have h2 := (List.chain'_cons.mp h1).1
    omega

/-- C1 (amended): the cursor update has no monotonic guard — it assigns any
truthy (nonzero) `nextBlock` unconditionally and only an absent or zero
value leaves the cursor unchanged; the observed cursor is therefore
non-decreasing exactly when every nonzero update value is at least the
cursor current at the time of that call. -/
theorem advanceCursor_mono_of_inOrder (cur : Nat) (next : Option Nat)
    (h : ∀ v, next = some v → 0 < v → cur ≤ v) :
    cur ≤ advanceCursor cur next := by
  cases next with
  | none => simp [advanceCursor]
  | some v =>
    by_cases hv : v = 0
    · simp [advanceCursor, hv]
    · have := h v rfl (Nat.pos_of_ne_zero hv)
      simpa [advanceCursor, hv] using this

/-- Witness for the amended C1 at a concrete in-order input. -/
theorem advanceCursor_mono_of_inOrder_witness :
    3 ≤ advanceCursor 3 (some 7) :=
  advanceCursor_mono_of_inOrder 3 (some 7)
    (fun v hv _ => by injection hv with h2; omega)

/-- C2: each sink upsert — the single-record `upsertEventWithRetry` and the
batch `batchUpsertEventsWithRetry` — makes at most `maxRetries` sink calls
for any sink behaviour, and every call of the batch variant hands over the
entire batch (the batch is never split); under a sink that fails every
attempt within the budget, both return a failure result after exactly
`maxRetries` calls, so no further call is made. -/
theorem sink_retry_budget (mr : Nat) (batch : List TappedRow) (c : Counters)
    (hne : batch ≠ []) :
    (∀ sink : Nat → Bool,
      (upsertEventWithRetry sink mr).2.length ≤ mr ∧
      (batchUpsertEventsWithRetry sink mr (some batch) c).2.1.length ≤ mr ∧
      ∀ p ∈ (batchUpsertEventsWithRetry sink mr (some batch) c).2.1,
        p.1 ≤ mr ∧ p.2 = batch) ∧
    (∀ sink : Nat → Bool, (∀ a, a ≤ mr → sink a = false) →
      (upsertEventWithRetry sink mr).1 = false ∧
      (upsertEventWithRetry sink mr).2.length = mr ∧
      (batchUpsertEventsWithRetry sink mr (some batch) c).1 = false ∧
      (batchUpsertEventsWithRetry sink mr (some batch) c).2.1.length = mr) := by
  have hlen : ¬ batch.length = 0 := by
    simpa [List.length_eq_zero] using hne
  constructor
  · intro sink
    refine ⟨?_, ?_, ?_⟩
    · simpa using upsertRetryAux_le sink mr mr 0 [] rfl
    · rw [batchUpsertEventsWithRetry_some_eq, if_neg hlen]
      simpa using batchRetryAux_le sink mr batch mr 0 [] c rfl
    · intro p hp
      rw [batchUpsertEventsWithRetry_some_eq, if_neg hlen] at hp
      rcases batchRetryAux_calls sink mr batch mr 0 [] c rfl p hp with hmem | hgood
      · simp at hmem
      · exact hgood
  · intro sink hfail
    have hu := upsertRetryAux_allFail sink mr hfail mr 0 [] rfl
    unfold upsertEventWithRetry
    rw [batchUpsertEventsWithRetry_some_eq, if_neg hlen, hu]
    rcases Nat.eq_zero_or_pos mr with hmr | hmr
    · subst hmr
      rw [batchRetryAux]
      simp
    · have hb := batchRetryAux_allFail sink mr batch hfail mr 0 [] c rfl hmr
      rw [hb]
      simp

/-- Witness for C2 at the specified scenario: the sink fails three times in
a row, the budget is 3, and a fourth call would succeed; the batch is
dropped after exactly the calls at attempts 1, 2, 3. -/
theorem sink_retry_budget_witness :
    (upsertEventWithRetry sinkFailsThrice 3).1 = false ∧
    (upsertEventWithRetry sinkFailsThrice 3).2.length = 3 ∧
    (batchUpsertEventsWithRetry sinkFailsThrice 3
      (some [sampleRowA, sampleRowB]) ⟨0, 0, 0⟩).1 = false ∧
    (batchUpsertEventsWithRetry sinkFailsThrice 3
      (some [sampleRowA, sampleRowB]) ⟨0, 0, 0⟩).2.1.length = 3 := by
  have h := sink_retry_budget 3 [sampleRowA, sampleRowB] ⟨0, 0, 0⟩ (by decide)
  have hf := h.2 sinkFailsThrice (by
    intro a ha
    simp only [sinkFailsThrice, decide_eq_false_iff_not]
    omega)
  exact ⟨hf.1, hf.2.1, hf.2.2.1, hf.2.2.2⟩

/-- C8: a missing or empty batch is an immediate no-op success of the batch
sink upsert — no sink call is made and no counter changes. -/
theorem batchUpsert_empty_noop (sink : Nat → Bool) (mr : Nat) (c : Counters) :
    batchUpsertEventsWithRetry (R := TappedRow) sink mr none c = (true, [], c) ∧
    batchUpsertEventsWithRetry (R := TappedRow) sink mr (some []) c =
      (true, [], c) := by
  constructor <;> rfl

/-- C10: for a nonempty batch of k records and a positive retry budget, a
batch that finally fails bumps the process-wide error counter by exactly k
and leaves the other counters unchanged, while a batch that succeeds bumps
the upserted-events counter by exactly k and the batches-sent counter by
exactly 1 and leaves the error counter unchanged. -/
theorem batch_counter_semantics (sink : Nat → Bool) (mr : Nat)
    (batch : List TappedRow) (c : Counters) (hmr : 0 < mr)
    (hne : batch ≠ []) :
    ((batchUpsertEventsWithRetry sink mr (some batch) c).1 = false →
      (batchUpsertEventsWithRetry sink mr (some batch) c).2.2 =
        { c with errors := c.errors + batch.length }) ∧
    ((batchUpsertEventsWithRetry sink mr (some batch) c).1 = true →
      (batchUpsertEventsWithRetry sink mr (some batch) c).2.2 =
        { c with batchesSent := c.batchesSent + 1,
                 eventsUpserted := c.eventsUpserted + batch.length }) := by
  have hlen : ¬ batch.length = 0 := by
    simpa [List.length_eq_zero] using hne
  rw [batchUpsertEventsWithRetry_some_eq, if_neg hlen]
  have h := batchRetryAux_counters sink mr batch mr 0 [] c rfl hmr
  exact ⟨h.2, h.1⟩

/-- Witness for C10: a two-record batch that exhausts a budget of 3 bumps
the error counter by exactly 2, and the same batch under a sink that
succeeds at once bumps the upserted counter by 2 and the batch counter
by 1. -/
theorem batch_counter_semantics_witness :
    (batchUpsertEventsWithRetry sinkFailsThrice 3
      (some [sampleRowA, sampleRowB]) ⟨0, 0, 0⟩).2.2 =
      { batchesSent := 0, eventsUpserted := 0, errors := 0 + 2 } ∧
    (batchUpsertEventsWithRetry (fun _ => true) 3
      (some [sampleRowA, sampleRowB]) ⟨0, 0, 0⟩).2.2 =
      { batchesSent := 0 + 1, eventsUpserted := 0 + 2, errors := 0 } := by
  constructor
  · exact (batch_counter_semantics sinkFailsThrice 3 [sampleRowA, sampleRowB]
      ⟨0, 0, 0⟩ (by decide) (by decide)).1
      (by simp [batchUpsertEventsWithRetry_some_eq, batchRetryAux, sinkFailsThrice])
  · exact (batch_counter_semantics (fun _ => true) 3 [sampleRowA, sampleRowB]
      ⟨0, 0, 0⟩ (by decide) (by decide)).2
      (by simp [batchUpsertEventsWithRetry_some_eq, batchRetryAux])

/-- C5: one pass of the at-tip branch sleeps the fixed polling interval and
re-queries the chain height; the stream is closed and reopened — at the
unchanged cursor position — exactly when the newly queried height exceeds
the previously known height, and an unchanged height leaves everything but
the sleep counter untouched, so polling repeats without reconnecting. -/
theorem atTip_poll_reconnect_iff (newHeight : Nat) (s : TipState) :
    ((atTipStep newHeight s).streamGen ≠ s.streamGen ↔ s.height < newHeight) ∧
    (atTipStep newHeight s).cursor = s.cursor ∧
    (atTipStep newHeight s).sleptMs = s.sleptMs + POLLING_INTERVAL ∧
    (s.height < newHeight →
      (atTipStep newHeight s).streamGen = s.streamGen + 1 ∧
      (atTipStep newHeight s).streamFrom = s.cursor ∧
      (atTipStep newHeight s).height = newHeight) ∧
    (¬ s.height < newHeight →
      atTipStep newHeight s = { s with sleptMs := s.sleptMs + POLLING_INTERVAL }) := by
  by_cases h : s.height < newHeight <;> simp [atTipStep, gt_iff_lt, h]

/-- Witness for C5: with known height 50 and cursor 40, a re-queried height
of 100 reconnects and reopens from block 40, while a re-queried height of
50 leaves the stream generation unchanged. -/
theorem atTip_poll_reconnect_iff_witness :
    (atTipStep 100 ⟨50, 40, 7, 30, 0⟩).streamGen = 7 + 1 ∧
    (atTipStep 100 ⟨50, 40, 7, 30, 0⟩).streamFrom = 40 ∧
    atTipStep 50 ⟨50, 40, 7, 30, 0⟩ = ⟨50, 40, 7, 30, 0 + POLLING_INTERVAL⟩ := by
  have h := atTip_poll_reconnect_iff 100 ⟨50, 40, 7, 30, 0⟩
  have h2 := atTip_poll_reconnect_iff 50 ⟨50, 40, 7, 30, 0⟩
  exact ⟨(h.2.2.2.1 (by decide)).1, (h.2.2.2.1 (by decide)).2.1,
    h2.2.2.2.2 (by decide)⟩

/-- C7 counterexample: the swap indexer computes the derived price with a
`Number` coercion — floating point — and persists it in the
`price_tap_in_weth` column of the stored row, so not every persisted
numeric value is handled as an arbitrary-precision integer: at the concrete
swap of 3 TAP in and 1 WETH out, the stored price field is float-derived. -/
theorem swap_price_stored_as_float_cex :
    (buildSwapRow true 1 "0xabc" 0 "0xs" "0xr" 0 3 1 0).price_tap_in_weth.kind =
      NumKind.floatingPoint ∧
    ¬ (∀ tn ∈ storedNumerics (buildSwapRow true 1 "0xabc" 0 "0xs" "0xr" 0 3 1 0),
        tn.kind = NumKind.bigIntExact) := by
  refine ⟨rfl, fun hall => ?_⟩
  have hmem : (buildSwapRow true 1 "0xabc" 0 "0xs" "0xr" 0 3 1 0).price_tap_in_weth
      ∈ storedNumerics (buildSwapRow true 1 "0xabc" 0 "0xs" "0xr" 0 3 1 0) := by
    simp [storedNumerics]
  have hk := hall _ hmem
  rw [show (buildSwapRow true 1 "0xabc" 0 "0xs" "0xr" 0 3 1 0).price_tap_in_weth.kind =
      NumKind.floatingPoint from rfl] at hk
  exact absurd hk (by decide)

/-- C7 (amended): the four uint256 swap amounts are handled as
arbitrary-precision BigInt end to end and persisted exactly; floating point
is used for human-readable display and, additionally, for the derived
`price_tap_in_weth` value, which is computed with a `Number` coercion and
persisted with the row. -/
theorem swap_numeric_kinds (isW : Bool) (bn : Nat) (th : String) (li : Nat)
    (s r : String) (a0i a1i a0o a1o : ℤ) :
    (buildSwapRow isW bn th li s r a0i a1i a0o a1o).amount_weth_in.kind =
      NumKind.bigIntExact ∧
    (buildSwapRow isW bn th li s r a0i a1i a0o a1o).amount_tap_in.kind =
      NumKind.bigIntExact ∧
    (buildSwapRow isW bn th li s r a0i a1i a0o a1o).amount_weth_out.kind =
      NumKind.bigIntExact ∧
    (buildSwapRow isW bn th li s r a0i a1i a0o a1o).amount_tap_out.kind =
      NumKind.bigIntExact ∧
    (buildSwapRow isW bn th li s r a0i a1i a0o a1o).price_tap_in_weth.kind =
      NumKind.floatingPoint :=
  ⟨rfl, rfl, rfl, rfl, rfl⟩

/-- A batch item whose decoder output is null, or whose per-record
processing raises, contributes no row. -/
theorem processItem_bad_eq_none (tt : String) (bad : BatchItem)
    (hbad : bad.decoded = none ∨ bad.procThrows = true) :
    processItem tt bad = none := by
  obtain ⟨dec, raw, thr⟩ := bad
  obtain ⟨bn, th, li, t0⟩ := raw
  rcases hbad with h | h
  · simp only at h
    subst h
    rfl
  · simp only at h
    subst h
    cases dec with
    | none => rfl
    | some d => cases th <;> cases li <;> cases bn <;> rfl

/-- A tapped row produced by record processing carries exactly the defined
raw natural-key fields of its source record. -/
theorem processItem_inl_fields (tt : String) (it : BatchItem) (t : TappedRow)
    (hp : processItem tt it = some (Sum.inl t)) :
    it.raw.transactionHash = some t.transaction_hash ∧
    it.raw.logIndex = some t.log_index ∧
    it.raw.blockNumber = some t.block_number := by
  obtain ⟨dec, raw, thr⟩ := it
  obtain ⟨bn, th, li, t0⟩ := raw
  cases dec with
  | none => simp [processItem] at hp
  | some d =>
    cases th with
    | none => simp [processItem] at hp
    | some thv =>
      cases li with
      | none => simp [processItem] at hp
      | some liv =>
        cases bn with
        | none => simp [processItem] at hp
        | some bnv =>
          simp only [processItem] at hp
          split_ifs at hp
          all_goals
            first
            | (obtain rfl := Sum.inl.inj (Option.some.inj hp)
               exact ⟨rfl, rfl, rfl⟩)
            | simp at hp

/-- A round-ended row produced by record processing carries exactly the
defined raw natural-key fields of its source record. -/
theorem processItem_inr_fields (tt : String) (it : BatchItem)
    (r : RoundEndedRow) (hp : processItem tt it = some (Sum.inr r)) :
    it.raw.transactionHash = some r.transaction_hash ∧
    it.raw.logIndex = some r.log_index ∧
    it.raw.blockNumber = some r.block_number := by
  obtain ⟨dec, raw, thr⟩ := it
  obtain ⟨bn, th, li, t0⟩ := raw
  cases dec with
  | none => simp [processItem] at hp
  | some d =>
    cases th with
    | none => simp [processItem] at hp
    | some thv =>
      cases li with
      | none => simp [processItem] at hp
      | some liv =>
        cases bn with
        | none => simp [processItem] at hp
        | some bnv =>
          simp only [processItem] at hp
          split_ifs at hp
          all_goals
            first
            | (obtain rfl := Sum.inr.inj (Option.some.inj hp)
               exact ⟨rfl, rfl, rfl⟩)
            | simp at hp

/-- C4: the endpoint pool selection advances round-robin with wraparound —
for any pool size and any valid current index the next index is
`(current + 1) % N` — connecting on an empty pool fails with the
no-endpoints error, and when endpoint `i` fails with a transient connection
error while endpoint `(i + 1) % N` succeeds, the connection loop returns a
streaming client from endpoint `(i + 1) % N` after 2 ≤ N attempts. -/
theorem endpoint_failover (succeeds connErr : Nat → Bool) (n i mrR : Nat)
    (hn : 2 ≤ n) (hi : i < n) (hmr : 1 ≤ mrR)
    (hfi : succeeds i = false) (hconn : connErr i = true)
    (hsucc : succeeds ((i + 1) % n) = true) :
    (∀ m j, j < m → (switchToNextRpc m j).2 = (j + 1) % m) ∧
    (∀ s2 c2 : Nat → Bool, ∀ idx mr2 : Nat,
      createHypersyncClientWithFallback s2 c2 0 idx mr2 =
        ConnectOutcome.noEndpointsConfigured) ∧
    createHypersyncClientWithFallback succeeds connErr n i mrR =
      ConnectOutcome.connected ((i + 1) % n) 2 ∧
    2 ≤ n := by
  refine ⟨?_, ?_, ?_, hn⟩
  · intro m j hj
    unfold switchToNextRpc
    by_cases hm : m ≤ 1
    · have hm1 : m = 1 := by omega
      have hj0 : j = 0 := by omega
      subst hm1; subst hj0
      simp
    · rw [if_neg hm]
  · intro s2 c2 idx mr2
    rfl
  · have hmax : 2 ≤ mrR * n := by
      calc 2 = 1 * 2 := by omega
      _ ≤ mrR * n := Nat.mul_le_mul hmr hn
    have hsw1 : (switchToNextRpc n i).1 = true := by
      unfold switchToNextRpc
      rw [if_neg (by omega : ¬ n ≤ 1)]
    have hsw2 : (switchToNextRpc n i).2 = (i + 1) % n := by
      unfold switchToNextRpc
      rw [if_neg (by omega : ¬ n ≤ 1)]
    unfold createHypersyncClientWithFallback
    rw [if_neg (by omega : ¬ n = 0)]
    rw [connectAux, if_pos (by omega : 0 < mrR * n), Nat.mod_eq_of_lt hi]
    rw [if_neg (by simp [hfi] : ¬ succeeds i = true)]
    rw [if_pos (by rw [hconn, hsw1]; rfl :
      (connErr i && (switchToNextRpc n i).1) = true)]
    rw [hsw2]
    have hlt : (i + 1) % n < n := Nat.mod_lt _ (by omega)
    rw [connectAux, if_pos (by omega : 1 < mrR * n), Nat.mod_eq_of_lt hlt,
      if_pos hsucc]

/-- Witness for C4: a two-endpoint pool where endpoint 0 fails with a
connection error and endpoint 1 succeeds reaches the streaming client from
endpoint 1 on the second attempt. -/
theorem endpoint_failover_witness :
    createHypersyncClientWithFallback (fun j => decide (j = 1)) (fun _ => true)
      2 0 1 = ConnectOutcome.connected 1 2 :=
  (endpoint_failover (fun j => decide (j = 1)) (fun _ => true) 2 0 1
    (by decide) (by decide) (by decide) (by decide) (by decide)
    (by decide)).2.2.1

/-- C6: a record whose decoded entry is null, or whose per-record
processing raises, is skipped while every remaining record of the same
batch is still processed — the rows collected from the rest of the batch
are unaffected by the bad record, for both destination tables. -/
theorem decode_failures_never_fatal (tt : String) (xs ys : List BatchItem)
    (bad : BatchItem) (hbad : bad.decoded = none ∨ bad.procThrows = true) :
    tappedBatchOf tt (xs ++ bad :: ys) =
      tappedBatchOf tt xs ++ tappedBatchOf tt ys ∧
    roundEndedBatchOf tt (xs ++ bad :: ys) =
      roundEndedBatchOf tt xs ++ roundEndedBatchOf tt ys := by
  have hnone := processItem_bad_eq_none tt bad hbad
  constructor
  · unfold tappedBatchOf
    rw [List.filterMap_append, List.filterMap_cons, hnone]
  · unfold roundEndedBatchOf
    rw [List.filterMap_append, List.filterMap_cons, hnone]

/-- Witness for C6 on a concrete three-record batch whose middle record is
undecodable: the surrounding records are still processed. -/
theorem decode_failures_never_fatal_witness :
    tappedBatchOf "0xTAP" ([sampleItemA] ++ sampleItemUndecodable ::
        [sampleItemThrowing]) =
      tappedBatchOf "0xTAP" [sampleItemA] ++
        tappedBatchOf "0xTAP" [sampleItemThrowing] :=
  (decode_failures_never_fatal "0xTAP" [sampleItemA] [sampleItemThrowing]
    sampleItemUndecodable (Or.inl rfl)).1

/-- C9: a log record whose blockNumber, transactionHash or logIndex is
undefined is skipped before any upsert, and every row actually handed to
the sink carries natural-key fields (plus block number) that are exactly
the defined fields of its source record. -/
theorem natural_key_completeness (tt : String) (items : List BatchItem) :
    (∀ it ∈ items,
      (it.raw.transactionHash = none ∨ it.raw.logIndex = none ∨
        it.raw.blockNumber = none) → processItem tt it = none) ∧
    (∀ t ∈ tappedBatchOf tt items, ∃ it ∈ items,
      it.raw.transactionHash = some t.transaction_hash ∧
      it.raw.logIndex = some t.log_index ∧
      it.raw.blockNumber = some t.block_number) ∧
    (∀ r ∈ roundEndedBatchOf tt items, ∃ it ∈ items,
      it.raw.transactionHash = some r.transaction_hash ∧
      it.raw.logIndex = some r.log_index ∧
      it.raw.blockNumber = some r.block_number) := by
  refine ⟨?_, ?_, ?_⟩
  · intro it hmem hmiss
    obtain ⟨dec, raw, thr⟩ := it
    obtain ⟨bn, th, li, t0⟩ := raw
    cases dec with
    | none => rfl
    | some d =>
      rcases hmiss with h | h | h
      · simp only at h; subst h
        cases li <;> cases bn <;> rfl
      · simp only at h; subst h
        cases th <;> cases bn <;> rfl
      · simp only at h; subst h
        cases th <;> cases li <;> rfl
  · intro t ht
    unfold tappedBatchOf at ht
    rcases List.mem_filterMap.mp ht with ⟨it, hmem, hf⟩
    refine ⟨it, hmem, ?_⟩
    have hp : processItem tt it = some (Sum.inl t) := by
      rcases hcase : processItem tt it with _ | v
      · rw [hcase] at hf; simp at hf
      · rcases v with tv | rv
        · rw [hcase] at hf
          simp at hf
          rw [hf]
        · rw [hcase] at hf; simp at hf
    exact processItem_inl_fields tt it t hp
  · intro r hr
    unfold roundEndedBatchOf at hr
    rcases List.mem_filterMap.mp hr with ⟨it, hmem, hf⟩
    refine ⟨it, hmem, ?_⟩
    have hp : processItem tt it = some (Sum.inr r) := by
      rcases hcase : processItem tt it with _ | v
      · rw [hcase] at hf; simp at hf
      · rcases v with tv | rv
        · rw [hcase] at hf; simp at hf
        · rw [hcase] at hf
          simp at hf
          rw [hf]
    exact processItem_inr_fields tt it r hp

/-- Witness for C9: a record with an undefined transaction hash is skipped
before any upsert. -/
theorem natural_key_completeness_witness :
    processItem "0xTAP" sampleItemMissingKey = none :=
  (natural_key_completeness "0xTAP" [sampleItemMissingKey]).1
    sampleItemMissingKey (by simp) (Or.inl rfl)

/-! ## Sink-table lemmas -/

theorem sameKey_iff (a b : TappedRow) :
    sameKey a b = true ↔ natKey a = natKey b := by
  simp [sameKey]

theorem sameKey_refl (a : TappedRow) : sameKey a a = true := by
  simp [sameKey]

theorem natKey_overwriteAt (r row : TappedRow) :
    natKey (overwriteAt r row) = natKey row := by
  unfold overwriteAt
  by_cases h : sameKey row r = true
  · rw [if_pos h]
    exact ((sameKey_iff row r).mp h).symm
  · rw [if_neg h]

theorem overwriteAt_pos (r row : TappedRow) (h : sameKey row r = true) :
    overwriteAt r row = r := by
  unfold overwriteAt
  rw [if_pos h]

theorem overwriteAt_neg (r row : TappedRow) (h : sameKey row r = false) :
    overwriteAt r row = row := by
  unfold overwriteAt
  rw [if_neg (by simp [h])]

theorem sameKey_overwriteAt (r row q : TappedRow) :
    sameKey (overwriteAt r row) q = sameKey row q := by
  unfold sameKey
  rw [natKey_overwriteAt]

theorem hasKeyOf_map_overwrite (t : List TappedRow) (r q : TappedRow) :
    hasKeyOf (t.map (overwriteAt r)) q = hasKeyOf t q := by
  unfold hasKeyOf
  rw [List.any_map]
  congr 1
  funext row
  exact sameKey_overwriteAt r row q

theorem hasKeyOf_false_all (t : List TappedRow) (r : TappedRow)
    (h : hasKeyOf t r = false) : ∀ x ∈ t, sameKey x r = false := by
  intro x hx
  unfold hasKeyOf at h
  rw [List.any_eq_false] at h
  simpa using h x hx

theorem map_overwrite_id (t : List TappedRow) (r : TappedRow)
    (h : ∀ row ∈ t, sameKey row r = false) :
    t.map (overwriteAt r) = t := by
  have h2 : ∀ row ∈ t, overwriteAt r row = id row := by
    intro row hrow
    unfold overwriteAt
    rw [if_neg (by simp [h row hrow])]
    rfl
  rw [List.map_congr_left h2, List.map_id]

theorem upsertRow_of_hasKey (t : List TappedRow) (r : TappedRow)
    (hk : hasKeyOf t r = true) : upsertRow t r = t.map (overwriteAt r) := by
  unfold upsertRow
  rw [if_pos hk]

theorem mem_upsertRow (t : List TappedRow) (r x : TappedRow)
    (hx : x ∈ upsertRow t r) : x = r ∨ x ∈ t := by
  unfold upsertRow at hx
  by_cases hk : hasKeyOf t r = true
  · rw [if_pos hk] at hx
    rcases List.mem_map.mp hx with ⟨row, hrow, heq⟩
    unfold overwriteAt at heq
    by_cases hs : sameKey row r = true
    · rw [if_pos hs] at heq
      exact Or.inl heq.symm
    · rw [if_neg hs] at heq
      right; rw [← heq]; exact hrow
  · rw [if_neg hk] at hx
    rcases List.mem_append.mp hx with hx | hx
    · exact Or.inr hx
    · left; simpa using hx

theorem hasKeyOf_upsertRow_self (t : List TappedRow) (r : TappedRow) :
    hasKeyOf (upsertRow t r) r = true := by
  unfold upsertRow
  by_cases hk : hasKeyOf t r = true
  · rw [if_pos hk, hasKeyOf_map_overwrite]
    exact hk
  · rw [if_neg hk]
    unfold hasKeyOf
    rw [List.any_append]
    simp [sameKey_refl]

theorem hasKeyOf_upsertRow_mono (t : List TappedRow) (r q : TappedRow)
    (h : hasKeyOf t q = true) : hasKeyOf (upsertRow t r) q = true := by
  unfold upsertRow
  by_cases hk : hasKeyOf t r = true
  · rw [if_pos hk, hasKeyOf_map_overwrite]
    exact h
  · rw [if_neg hk]
    unfold hasKeyOf at h ⊢
    rw [List.any_append, h]
    rfl

theorem hasKeyOf_applyBatch_mono (b : List TappedRow) :
    ∀ t q, hasKeyOf t q = true → hasKeyOf (applyBatch t b) q = true := by
  induction b with
  | nil => intro t q h; exact h
  | cons y b ih =>
    intro t q h
    exact ih (upsertRow t y) q (hasKeyOf_upsertRow_mono t y q h)

theorem upsertRow_keyed_self (t : List TappedRow) (r : TappedRow) :
    ∀ x ∈ upsertRow t r, sameKey x r = true → x = r := by
  intro x hx hkey
  unfold upsertRow at hx
  by_cases hk : hasKeyOf t r = true
  · rw [if_pos hk] at hx
    rcases List.mem_map.mp hx with ⟨row, hrow, heq⟩
    rw [← heq] at hkey ⊢
    rw [sameKey_overwriteAt] at hkey
    unfold overwriteAt
    rw [if_pos hkey]
  · rw [if_neg hk] at hx
    rcases List.mem_append.mp hx with hx | hx
    · have := hasKeyOf_false_all t r (by simpa using hk) x hx
      rw [this] at hkey
      cases hkey
    · simpa using hx

theorem applyBatch_keyed_preserved (r : TappedRow) :
    ∀ b t, (∀ y ∈ b, sameKey y r = false) →
      (∀ x ∈ t, sameKey x r = true → x = r) →
      ∀ x ∈ applyBatch t b, sameKey x r = true → x = r := by
  intro b
  induction b with
  | nil => intro t _ ht; exact ht
  | cons y b ih =>
    intro t hb ht
    have hy : sameKey y r = false := hb y (List.mem_cons_self y b)
    refine ih (upsertRow t y) (fun y2 h => hb y2 (List.mem_cons_of_mem _ h)) ?_
    intro x hx hkey
    rcases mem_upsertRow t y x hx with rfl | hxt
    · rw [hkey] at hy
      cases hy
    · exact ht x hxt hkey

theorem upsertRow_of_keyed (t : List TappedRow) (r : TappedRow)
    (hk : hasKeyOf t r = true) (ht : ∀ x ∈ t, sameKey x r = true → x = r) :
    upsertRow t r = t := by
  unfold upsertRow
  rw [if_pos hk]
  have h2 : ∀ row ∈ t, overwriteAt r row = id row := by
    intro row hrow
    unfold overwriteAt
    by_cases hs : sameKey row r = true
    · rw [if_pos hs]
      exact (ht row hrow hs).symm
    · rw [if_neg hs]
      rfl
  rw [List.map_congr_left h2, List.map_id]

/-- Overwriting a key in place is absorbed by a later batch that writes the
same key: applying the batch after the in-place overwrite gives the same
table as applying the batch directly. -/
theorem applyBatch_map_overwrite (r : TappedRow) :
    ∀ b t, (∃ y ∈ b, sameKey y r = true) →
      applyBatch ((t : List TappedRow).map (overwriteAt r)) b =
        applyBatch t b := by
  intro b
  induction b with
  | nil =>
    rintro t ⟨y, hy, _⟩
    cases hy
  | cons y b ih =>
    rintro t ⟨y2, hy2, hkey⟩
    by_cases hyr : sameKey y r = true
    · have hry : natKey r = natKey y := ((sameKey_iff y r).mp hyr).symm
      have hstep : upsertRow (t.map (overwriteAt r)) y = upsertRow t y := by
        unfold upsertRow
        rw [hasKeyOf_map_overwrite]
        by_cases hk : hasKeyOf t y = true
        · rw [if_pos hk, if_pos hk, List.map_map]
          apply List.map_congr_left
          intro row hrow
          show overwriteAt y (overwriteAt r row) = overwriteAt y row
          by_cases hs : sameKey row r = true
          · have hs2 : sameKey row y = true := by
              rw [sameKey_iff] at hs ⊢
              rw [hs]
              exact hry
            have hs3 : sameKey r y = true := by
              rw [sameKey_iff]
              exact hry
            rw [overwriteAt_pos r row hs, overwriteAt_pos y r hs3,
              overwriteAt_pos y row hs2]
          · rw [overwriteAt_neg r row (by simpa using hs)]
        · rw [if_neg hk, if_neg hk]
          have hnone : ∀ row ∈ t, sameKey row r = false := by
            intro row hrow
            have h1 := hasKeyOf_false_all t y (by simpa using hk) row hrow
            unfold sameKey at h1 ⊢
            rw [hry]
            exact h1
          rw [map_overwrite_id t r hnone]
      show applyBatch (upsertRow (t.map (overwriteAt r)) y) b =
        applyBatch (upsertRow t y) b
      rw [hstep]
    · have hyrf : sameKey y r = false := by simpa using hyr
      have hy2b : y2 ∈ b := by
        rcases List.mem_cons.mp hy2 with rfl | h
        · exact absurd hkey hyr
        · exact h
      have hcomm : upsertRow (t.map (overwriteAt r)) y =
          (upsertRow t y).map (overwriteAt r) := by
        unfold upsertRow
        rw [hasKeyOf_map_overwrite]
        by_cases hk : hasKeyOf t y = true
        · rw [if_pos hk, if_pos hk, List.map_map, List.map_map]
          apply List.map_congr_left
          intro row hrow
          show overwriteAt y (overwriteAt r row) = overwriteAt r (overwriteAt y row)
          by_cases hs1 : sameKey row r = true <;>
            by_cases hs2 : sameKey row y = true
          · exfalso
            apply hyr
            rw [sameKey_iff] at hs1 hs2 ⊢
            rw [← hs2, hs1]
          · have hs2f : sameKey row y = false := by simpa using hs2
            have hs3f : sameKey r y = false := by
              unfold sameKey at hs2f ⊢
              rw [← ((sameKey_iff row r).mp hs1)]
              exact hs2f
            rw [overwriteAt_pos r row hs1, overwriteAt_neg y r hs3f,
              overwriteAt_neg y row hs2f, overwriteAt_pos r row hs1]
          · have hs1f : sameKey row r = false := by simpa using hs1
            rw [overwriteAt_neg r row hs1f, overwriteAt_pos y row hs2,
              overwriteAt_neg r y hyrf]
          · have hs1f : sameKey row r = false := by simpa using hs1
            have hs2f : sameKey row y = false := by simpa using hs2
            rw [overwriteAt_neg r row hs1f, overwriteAt_neg y row hs2f,
              overwriteAt_neg r row hs1f]
        · rw [if_neg hk, if_neg hk, List.map_append]
          rw [List.map_singleton, overwriteAt_neg r y hyrf]
      show applyBatch (upsertRow (t.map (overwriteAt r)) y) b =
        applyBatch (upsertRow t y) b
      rw [hcomm]
      exact ih (upsertRow t y) ⟨y2, hy2b, hkey⟩

/-- Applying the same batch a second time leaves the table unchanged. -/
theorem applyBatch_idem_aux :
    ∀ (b : List TappedRow) (t : List TappedRow),
      applyBatch (applyBatch t b) b = applyBatch t b := by
  intro b
  induction b with
  | nil => intro t; rfl
  | cons r b ih =>
    intro t
    have hkT : hasKeyOf (applyBatch (upsertRow t r) b) r = true :=
      hasKeyOf_applyBatch_mono b (upsertRow t r) r (hasKeyOf_upsertRow_self t r)
    show applyBatch (upsertRow (applyBatch (upsertRow t r) b) r) b =
      applyBatch (upsertRow t r) b
    by_cases hex : ∃ y ∈ b, sameKey y r = true
    · rw [upsertRow_of_hasKey _ r hkT, applyBatch_map_overwrite r b _ hex]
      exact ih (upsertRow t r)
    · push_neg at hex
      have hb : ∀ y ∈ b, sameKey y r = false := by
        intro y hy
        simpa using hex y hy
      have hkeyed : ∀ x ∈ applyBatch (upsertRow t r) b,
          sameKey x r = true → x = r :=
        applyBatch_keyed_preserved r b (upsertRow t r) hb
          (upsertRow_keyed_self t r)
      rw [upsertRow_of_keyed _ r hkT hkeyed]
      exact ih (upsertRow t r)

/-- A single upsert keeps the natural keys of the table pairwise distinct. -/
theorem keysNodup_upsertRow (t : List TappedRow) (r : TappedRow)
    (h : keysNodup t) : keysNodup (upsertRow t r) := by
  unfold upsertRow
  by_cases hk : hasKeyOf t r = true
  · rw [if_pos hk]
    unfold keysNodup at h ⊢
    rw [List.pairwise_map]
    refine h.imp ?_
    intro a b hab
    rw [show sameKey (overwriteAt r a) (overwriteAt r b) = sameKey a b by
      rw [sameKey_overwriteAt]
      unfold sameKey
      rw [natKey_overwriteAt]]
    exact hab
  · rw [if_neg hk]
    unfold keysNodup at h ⊢
    rw [List.pairwise_append]
    refine ⟨h, List.pairwise_singleton _ _, ?_⟩
    intro a ha q hq
    simp only [List.mem_singleton] at hq
    rw [hq]
    exact hasKeyOf_false_all t r (by simpa using hk) a ha

/-- A whole batch of upserts keeps the natural keys pairwise distinct. -/
theorem keysNodup_applyBatch (b : List TappedRow) :
    ∀ t, keysNodup t → keysNodup (applyBatch t b) := by
  induction b with
  | nil => intro t h; exact h
  | cons y b ih =>
    intro t h
    exact ih (upsertRow t y) (keysNodup_upsertRow t y h)

/-- C3: applying the same batch of sink records twice produces the same
persisted table as applying it once; after an upsert the table holds a row
carrying the record's natural key and every row at that key is the new
record (conflict overwrite, not insert-or-fail); and upserting never
creates two rows sharing a natural key. -/
theorem upsert_idempotent (t b : List TappedRow) :
    applyBatch (applyBatch t b) b = applyBatch t b ∧
    (keysNodup t → keysNodup (applyBatch t b)) ∧
    (∀ r : TappedRow, hasKeyOf (upsertRow t r) r = true ∧
      ∀ x ∈ upsertRow t r, sameKey x r = true → x = r) :=
  ⟨applyBatch_idem_aux b t,
   fun h => keysNodup_applyBatch b t h,
   fun r => ⟨hasKeyOf_upsertRow_self t r, upsertRow_keyed_self t r⟩⟩

/-- Witness for C3 at a concrete table and batch with an internal key
conflict. -/
theorem upsert_idempotent_witness :
    applyBatch (applyBatch [] [sampleRowA, sampleRowB, sampleRowA])
        [sampleRowA, sampleRowB, sampleRowA] =
      applyBatch [] [sampleRowA, sampleRowB, sampleRowA] ∧
    keysNodup (applyBatch [] [sampleRowA, sampleRowB, sampleRowA]) := by
  have h := upsert_idempotent [] [sampleRowA, sampleRowB, sampleRowA]
  exact ⟨h.1, h.2.1 List.Pairwise.nil⟩

end LastTap
